import Mathlib

/-!
Shallow embedding of the prototype-selection core of the repository:
`src/algorithms/prototype_selection/icf.py` (iterative case filtering) and
`src/algorithms/prototype_selection/drlsh.py` (LSH-based reduction).

Conventions of the embedding:
* feature vectors are `List ℚ`, labels are `List ℤ`; row order gives each
  instance its identity `0 .. N-1`, as in the source;
* `numpy.inf` (the initial value of ICF's nearest-enemy distances) is the
  `none` case of `Option ℚ`, compared with `ltOpt`;
* the distance metric is a parameter `dist : List ℚ → List ℚ → ℚ`; the
  concrete instantiation `euclidSq` is the squared Euclidean distance.  The
  source uses the Euclidean distance; squaring is strictly monotone on
  nonnegative reals, so every strict comparison the algorithms perform
  (`d(i,j) < nearest-enemy-distance`) has the same truth value;
* `numpy` randomness is an abstract draw stream `gen : ℕ → ℚ`; seeding is a
  map `ℕ → (ℕ → ℚ)` from the seed to the stream it determines;
* the `while` loops are embedded as fuel recursion (DRLSH's class scan) or
  well-founded recursion on the size of the surviving set (ICF's loop).
-/

/-- Insert into a sorted list, for `sortLe`. -/
def insertLe {α : Type} (le : α → α → Bool) (a : α) : List α → List α
  | [] => [a]
  | b :: l => if le a b then a :: b :: l else b :: insertLe le a l

/-- Insertion sort by a boolean comparison (the sorted orders `np.unique`
and the neighbour search produce). -/
def sortLe {α : Type} (le : α → α → Bool) : List α → List α
  | [] => []
  | a :: l => insertLe le a (sortLe le l)

/-- Boolean test `x < acc` where `acc : Option ℚ` models a float that is
either `numpy.inf` (`none`) or finite (`some v`); anything is `< inf`. -/
def ltOpt (x : ℚ) : Option ℚ → Bool
  | none => true
  | some v => decide (x < v)

/-- Squared Euclidean distance of two feature vectors (order-equivalent to
the `euclidean` metric of `sklearn.metrics.pairwise_distances`). -/
def euclidSq (u v : List ℚ) : ℚ :=
  (u.zip v).foldl (fun acc p => acc + (p.1 - p.2) * (p.1 - p.2)) 0

/-- `self.X_ = self.X[S]` — the feature rows of the surviving set. -/
def icfXs (X : List (List ℚ)) (S : List ℕ) : List (List ℚ) :=
  S.map (fun i => X.getD i [])

/-- `self.y_ = self.y[S]` — the labels of the surviving set. -/
def icfYs (y : List ℤ) (S : List ℕ) : List ℤ :=
  S.map (fun i => y.getD i 0)

/-- `self.pairwise_distance[p, q]` over the surviving set, recomputed from
`X_` exactly as `pairwise_distances(self.X_, metric=self.metric)` does. -/
def icfD (dist : List ℚ → List ℚ → ℚ) (X : List (List ℚ)) (S : List ℕ)
    (p q : ℕ) : ℚ :=
  dist ((icfXs X S).getD p []) ((icfXs X S).getD q [])

/-- `ICF._set_distance_nearest_enemy` for row `q` of the surviving set: the
fold mirrors the source loop that starts from `np.inf` (`none`) and keeps
the strictly smaller distance to each differently-labelled row. -/
def icfDNE (dist : List ℚ → List ℚ → ℚ) (X : List (List ℚ)) (y : List ℤ)
    (S : List ℕ) (q : ℕ) : Option ℚ :=
  (List.range S.length).foldl
    (fun acc p2 =>
      if ((icfYs y S).getD q 0 != (icfYs y S).getD p2 0)
          && ltOpt (icfD dist X S q p2) acc
      then some (icfD dist X S q p2) else acc)
    none

/-- `ICF._adaptable(p, q)`: `pairwise_distance[p, q] < distance_nearest_enemy[q]`
(the source keeps the nearest-enemy distance indexed by the second argument). -/
def icfAdaptable (dist : List ℚ → List ℚ → ℚ) (X : List (List ℚ))
    (y : List ℤ) (S : List ℕ) (p q : ℕ) : Bool :=
  ltOpt (icfD dist X S p q) (icfDNE dist X y S q)

/-- `ICF._get_coverage(p)`: rows `q ≠ p` with `mask[q]` set to which `p` is
adaptable. -/
def icfCov (dist : List ℚ → List ℚ → ℚ) (X : List (List ℚ)) (y : List ℤ)
    (S : List ℕ) (mask : List Bool) (p : ℕ) : ℕ :=
  ((List.range S.length).filter
    (fun q => (q != p) && mask.getD q false && icfAdaptable dist X y S p q)).length

/-- `ICF._get_reachable(p)`: rows `q ≠ p` with `mask[q]` set that are
adaptable to `p`. -/
def icfReach (dist : List ℚ → List ℚ → ℚ) (X : List (List ℚ)) (y : List ℤ)
    (S : List ℕ) (mask : List Bool) (p : ℕ) : ℕ :=
  ((List.range S.length).filter
    (fun q => (q != p) && mask.getD q false && icfAdaptable dist X y S q p)).length

/-- `self.mask = np.ones(len(self.X_), dtype=bool)` at the start of a pass. -/
def icfMaskInit (S : List ℕ) : List Bool :=
  List.replicate S.length true

/-- The `coverage` array of a pass: filled only where the (all-true) mask is
set, `0` elsewhere (`np.zeros` initialisation). -/
def icfCovArr (dist : List ℚ → List ℚ → ℚ) (X : List (List ℚ)) (y : List ℤ)
    (S : List ℕ) (p : ℕ) : ℕ :=
  if (icfMaskInit S).getD p false then icfCov dist X y S (icfMaskInit S) p else 0

/-- The `reachable` array of a pass, analogously. -/
def icfReachArr (dist : List ℚ → List ℚ → ℚ) (X : List (List ℚ)) (y : List ℤ)
    (S : List ℕ) (p : ℕ) : ℕ :=
  if (icfMaskInit S).getD p false then icfReach dist X y S (icfMaskInit S) p else 0

/-- The removal loop of one pass of `ICF._fit`: sequentially over all rows,
clear `mask[p]` when it is still set and `reachable[p] > coverage[p]`,
reading the arrays precomputed before the loop. -/
def icfMaskFinal (dist : List ℚ → List ℚ → ℚ) (X : List (List ℚ))
    (y : List ℤ) (S : List ℕ) : List Bool :=
  (List.range S.length).foldl
    (fun m p =>
      if m.getD p false ∧ icfCovArr dist X y S p < icfReachArr dist X y S p
      then m.set p false else m)
    (icfMaskInit S)

/-- One full pass of `ICF._fit`'s `while` body: `S = S[self.mask]`. -/
def icfPass (dist : List ℚ → List ℚ → ℚ) (X : List (List ℚ)) (y : List ℤ)
    (S : List ℕ) : List ℕ :=
  (S.enum.filter (fun pe => (icfMaskFinal dist X y S).getD pe.1 false)).map Prod.snd

/-- Coverage of row `p` as the specification words it: the number of other
surviving rows `q` with `distance(p,q) < nearest-enemy-distance(q)`, on the
common pass-start snapshot. -/
def icfCovSnap (dist : List ℚ → List ℚ → ℚ) (X : List (List ℚ)) (y : List ℤ)
    (S : List ℕ) (p : ℕ) : ℕ :=
  ((List.range S.length).filter
    (fun q => (q != p) && icfAdaptable dist X y S p q)).length

/-- Reachability of row `p` as the specification words it: the number of
other surviving rows `q` with `distance(q,p) < nearest-enemy-distance(p)`. -/
def icfReachSnap (dist : List ℚ → List ℚ → ℚ) (X : List (List ℚ)) (y : List ℤ)
    (S : List ℕ) (p : ℕ) : ℕ :=
  ((List.range S.length).filter
    (fun q => (q != p) && icfAdaptable dist X y S q p)).length

/-- One pass as the specification words it: remove exactly the rows whose
reachability strictly exceeds their coverage, both taken on the pass-start
snapshot, with no mid-pass re-evaluation. -/
def icfPassSnap (dist : List ℚ → List ℚ → ℚ) (X : List (List ℚ)) (y : List ℤ)
    (S : List ℕ) : List ℕ :=
  (S.enum.filter
    (fun pe => !decide (icfCovSnap dist X y S pe.1 < icfReachSnap dist X y S pe.1))).map
    Prod.snd

/-- The `while progress` loop of `ICF._fit`: repeat passes while the pass
removed something (equivalently: while the surviving set shrank). -/
def icfLoop (dist : List ℚ → List ℚ → ℚ) (X : List (List ℚ)) (y : List ℤ)
    (S : List ℕ) : List ℕ :=
  if h : (icfPass dist X y S).length < S.length then
    icfLoop dist X y (icfPass dist X y S)
  else icfPass dist X y S
termination_by S.length
decreasing_by exact h

/-- Number of executed passes of `ICF._fit`'s loop on a given seed set. -/
def icfPassCount (dist : List ℚ → List ℚ → ℚ) (X : List (List ℚ))
    (y : List ℤ) (S : List ℕ) : ℕ :=
  if h : (icfPass dist X y S).length < S.length then
    icfPassCount dist X y (icfPass dist X y S) + 1
  else 1
termination_by S.length
decreasing_by exact h

/-- Modelled from the spec: `ENN._fit` (the file
`src/algorithms/prototype_selection/enn.py` is not in the sources).  Per the
spec, ENN keeps exactly the instances that a leave-one-out `k`-nearest-
neighbour majority vote classifies correctly.  Ties in the distance order
are broken by the smaller index, and the vote is "correct" when no other
label outnumbers the instance's own label among its `k` neighbours. -/
def ennKeep (X : List (List ℚ)) (y : List ℤ) (k : ℕ) (i : ℕ) : Bool :=
  let nbrs :=
    (sortLe
      (fun a b =>
        decide (euclidSq (X.getD i []) (X.getD a []) <
                euclidSq (X.getD i []) (X.getD b [])) ||
        (decide (euclidSq (X.getD i []) (X.getD a []) =
                 euclidSq (X.getD i []) (X.getD b [])) && decide (a ≤ b)))
      ((List.range X.length).filter (fun j => j != i))).take k
  let labels := nbrs.map (fun j => y.getD j 0)
  labels.all (fun l => labels.count l ≤ labels.count (y.getD i 0))

/-- Modelled from the spec: the index set `ENN(...).fit(X, y).sample_indices_`
that seeds `ICF._fit`'s loop. -/
def ennIdx (X : List (List ℚ)) (y : List ℤ) (k : ℕ) : List ℕ :=
  (List.range X.length).filter (ennKeep X y k)

/-- `ICF._fit` with the default Euclidean metric: the ENN pre-filter feeds
the coverage/reachability loop. -/
def icfFitIdx (X : List (List ℚ)) (y : List ℤ) (k : ℕ) : List ℕ :=
  icfLoop euclidSq X y (ennIdx X y k)

/-- A fixed draw stream (every draw `0`), used for concrete runs. -/
def genZero : ℕ → ℚ := fun _ => 0

/-- Minimum of a list of rationals (`np.min` of a nonempty column; `0` on
the empty list, which never occurs for valid inputs). -/
def listMinQ : List ℚ → ℚ
  | [] => 0
  | x :: xs => xs.foldl min x

/-- Maximum of a list of rationals (`np.max` of a nonempty column). -/
def listMaxQ : List ℚ → ℚ
  | [] => 0
  | x :: xs => xs.foldl max x

/-- Column `t` of the feature matrix. -/
def colQ (X : List (List ℚ)) (t : ℕ) : List ℚ :=
  X.map (fun row => row.getD t 0)

/-- The denominator `MinMaxScaler` uses for column `t`: the data range, with
a zero range replaced by `1` (sklearn's `_handle_zeros_in_scale`). -/
def mmDenom (X : List (List ℚ)) (t : ℕ) : ℚ :=
  if listMaxQ (colQ X t) = listMinQ (colQ X t) then 1
  else listMaxQ (colQ X t) - listMinQ (colQ X t)

/-- `MinMaxScaler().fit_transform` on the feature columns: each entry is
mapped to `(x - column min) / (column max - column min)`. -/
def normX (X : List (List ℚ)) : List (List ℚ) :=
  X.map (fun row =>
    (List.range row.length).map
      (fun t => (row.getD t 0 - listMinQ (colQ X t)) / mmDenom X t))

/-- `int(N ** (1 / 7))`: the integer seventh root (largest `m` with
`m ^ 7 ≤ n`), which is what the float expression computes at the sizes the
program handles. -/
def iroot7 (n : ℕ) : ℕ :=
  ((List.range (n + 1)).filter (fun m => m ^ 7 ≤ n)).length - 1

/-- `DRLSH._fit` line `self.M = int(self.X.shape[0] ** (1 / 7))`: the number
of hash functions per table the fit actually uses, given the caller-supplied
`M` (which the assignment overwrites unconditionally). -/
def drlshUsedM (X : List (List ℚ)) ( M : ℕ) : ℕ :=
  iroot7 X.length

/-- The `.astype(np.int16)` cast applied to the floored hash values. -/
def int16 (z : ℤ) : ℤ :=
  (z + 2 ^ 15) % 2 ^ 16 - 2 ^ 15

/-- Dot product of two equally long rational vectors. -/
def dotQ (u v : List ℚ) : ℚ :=
  (u.zip v).foldl (fun acc p => acc + p.1 * p.2) 0

/-- Row `r` of the projection matrix `a`: `Dm` consecutive draws from the
abstract random stream `gen`. -/
def aRow (gen : ℕ → ℚ) (Dm r : ℕ) : List ℚ :=
  (List.range Dm).map (fun t => gen (r * Dm + t))

/-- Lexicographic `≤` on integer signatures (the row order `np.unique`
uses when it sorts signature rows). -/
def lexLeZ : List ℤ → List ℤ → Bool
  | [], _ => true
  | _ :: _, [] => false
  | x :: xs, z :: zs => if x < z then true else if z < x then false else lexLeZ xs zs

/-- `np.unique(BI.T, axis=0)`: the distinct signatures in lexicographically
sorted order. -/
def uniqSigs (sigs : List (List ℤ)) : List (List ℤ) :=
  (sortLe lexLeZ sigs).dedup

/-- The hash signature of instance `n` in table `i`:
`floor((a[j] @ x + b[j]) / W).astype(np.int16)` for the `Mm` rows `j` of
table `i`, where `b = W * rand(...)` is drawn right after `a` from the same
stream. -/
def drlshSig (gen : ℕ → ℚ) (Dm Mm L : ℕ) (W : ℚ) (Xn : List (List ℚ))
    (i n : ℕ) : List ℤ :=
  (List.range Mm).map (fun m =>
    int16 ⌊(dotQ (aRow gen Dm (i * Mm + m)) (Xn.getD n [])
            + W * gen (Mm * L * Dm + (i * Mm + m))) / W⌋)

/-- `Bucket_Index_Decimal_All`, transposed to one column (length `L`) per
instance: entry `i` is the rank of instance `n`'s table-`i` signature among
that table's sorted distinct signatures. -/
def drlshBuckets (gen : ℕ → ℚ) (X : List (List ℚ)) ( M L : ℕ) (W : ℚ) :
    List (List ℤ) :=
  (List.range X.length).map (fun n =>
    (List.range L).map (fun i =>
      (Int.ofNat
        ((uniqSigs ((List.range X.length).map
            (fun n2 => drlshSig gen (X.headD []).length (drlshUsedM X M) L W (normX X) i n2))).findIdx
          (fun u => u == drlshSig gen (X.headD []).length (drlshUsedM X M) L W (normX X) i n)))))

/-- The column the scan compares against at class position `p` while
position `iii` is being scanned: the source temporarily overwrites the
scanned column with `-1` entries
(`Bucket_Index_Decimal_All_Class[:, iii] = -1`). -/
def drlshColAt (cols : ℕ → List ℤ) (L : ℕ) (idxs : List ℕ) (iii p : ℕ) :
    List ℤ :=
  if p = iii then List.replicate L (-1) else cols (idxs.getD p 0)

/-- `Number_of_Common_Buckets[p]`: over the `L` tables, how many bucket ids
of the class column at position `p` agree with those of the scanned one. -/
def drlshCnt (cols : ℕ → List ℤ) (L : ℕ) (idxs : List ℕ) (iii p : ℕ) : ℕ :=
  ((List.range L).filter
    (fun t => (drlshColAt cols L idxs iii p).getD t 0
      == (cols (idxs.getD iii 0)).getD t 0)).length

/-- `Removed_Samples_Current`: the class indices whose agreement count with
the scanned instance is positive (`Number_of_Common_Buckets > 0`) and meets
the threshold (`Frequency_Neighbors >= ST`). -/
def drlshRemCur (cols : ℕ → List ℤ) (L ST : ℕ) (idxs : List ℕ) (iii : ℕ) :
    List ℕ :=
  ((List.range idxs.length).filter
    (fun p => decide (0 < drlshCnt cols L idxs iii p)
      && decide (ST ≤ drlshCnt cols L idxs iii p))).map
    (fun p => idxs.getD p 0)

/-- `min(Temporal_Removed_Samples)`; the list is never empty in the source
(it always holds the sentinel), the `[]` case returns the sentinel. -/
def listMinN (trs : ℕ) : List ℕ → ℕ
  | [] => trs
  | x :: xs => xs.foldl min x

/-- The per-class scan of `DRLSH._fit` (the `while iii < len(All_Indexes)`
loop), embedded with fuel.  State: `idxs` is `All_Indexes`, `iii` the scan
position, `temporal` is `Temporal_Removed_Samples` (seeded with the sentinel
`trs = N + 1`), `acc` is `Removed_Samples_Index_ALL`.  Each step appends
`Removed_Samples_Current` to both lists.  The window restarts — dropping
indices flagged since the last restart and the scanned prefix, with the
position reset that the trailing `iii += 1` turns into `1` — when a flagged
index could lie at or before the next position, or after position `2000`. -/
def drlshScan (cols : ℕ → List ℤ) (L ST trs : ℕ) :
    ℕ → List ℕ → ℕ → List ℕ → List ℕ → List ℕ
  | 0, _, _, _, acc => acc
  | fuel + 1, idxs, iii, temporal, acc =>
    if iii < idxs.length then
      if (decide (iii + 1 < idxs.length)
          && decide (listMinN trs (temporal ++ drlshRemCur cols L ST idxs iii)
              ≤ idxs.getD (iii + 1) 0))
          || decide (2000 < iii) then
        drlshScan cols L ST trs fuel
          ((idxs.filter
            (fun v => !(temporal ++ drlshRemCur cols L ST idxs iii).contains v)).drop
            iii)
          1 [trs] (acc ++ drlshRemCur cols L ST idxs iii)
      else
        drlshScan cols L ST trs fuel idxs (iii + 1)
          (temporal ++ drlshRemCur cols L ST idxs iii)
          (acc ++ drlshRemCur cols L ST idxs iii)
    else acc

/-- `np.where(Data[:, -1] == classID)[0]`: the (sorted) indices of class `c`. -/
def classIdxs (y : List ℤ) (c : ℤ) : List ℕ :=
  (List.range y.length).filter (fun n => y.getD n 0 == c)

/-- `np.unique(Data[:, -1])`: the distinct labels in sorted order. -/
def classesOf (y : List ℤ) : List ℤ :=
  (sortLe (fun a b => decide (a ≤ b)) y).dedup

/-- Fuel that amply covers the scan of one class window. -/
def drlshFuel (len : ℕ) : ℕ :=
  (len + 2) * (len + 2003)

/-- `Removed_Samples_Index_ALL` after all per-class scans: one accumulator
threaded through the classes in `np.unique` order. -/
def drlshRemoved (gen : ℕ → ℚ) (X : List (List ℚ)) (y : List ℤ)
    ( M L : ℕ) (W : ℚ) (ST : ℕ) : List ℕ :=
  (classesOf y).foldl
    (fun acc c =>
      drlshScan (fun n => (drlshBuckets gen X M L W).getD n []) L ST
        (X.length + 1) (drlshFuel (classIdxs y c).length) (classIdxs y c) 0
        [X.length + 1] acc)
    []

/-- `np.setdiff1d(np.arange(Data.shape[0]), Removed_Samples_Index_ALL)`:
the selected indices `DRLSH._fit` returns.  (The source's interposed
`!= -1` filter is a no-op: every flagged value is a real index; `-1` only
ever appears as the temporary in-matrix marker.) -/
def drlshSelect (gen : ℕ → ℚ) (X : List (List ℚ)) (y : List ℤ)
    ( M L : ℕ) (W : ℚ) (ST : ℕ) : List ℕ :=
  (List.range X.length).filter
    (fun v => !(drlshRemoved gen X y M L W ST).contains v)

/-- Modelled from the spec: `BaseAlgorithm.fit` (the file
`src/algorithms/prototype_selection/base.py` is not in the sources).  Per
the spec it fails on mismatched feature/label lengths or an empty dataset
and otherwise records the result of the algorithm-specific `_fit`. -/
def drlshFit (gen : ℕ → ℚ) (X : List (List ℚ)) (y : List ℤ)
    ( M L : ℕ) (W : ℚ) (ST : ℕ) : Except String (List ℕ) :=
  if X.length ≠ y.length then Except.error "X and y have mismatched lengths"
  else if X.length = 0 then Except.error "X has zero rows"
  else Except.ok (drlshSelect gen X y M L W ST)

/-- `DRLSH.fit` as invoked with an ambient `numpy` global random state:
the first statements of `_fit` execute `np.random.seed(0)`, so the draw
stream is the one the seed `0` determines (`gen 0`), whatever the ambient
state `ambient` was. -/
def drlshFitSeeded (ambient : ℕ) (gen : ℕ → ℕ → ℚ) (X : List (List ℚ))
    (y : List ℤ) ( M L : ℕ) (W : ℚ) (ST : ℕ) : Except String (List ℕ) :=
  drlshFit (gen 0) X y M L W ST

theorem getD_true_lt_length (m : List Bool) (a : ℕ)
    (h : m.getD a false = true) : a < m.length := by
  by_contra hc
  rw [List.getD_eq_getElem?_getD, List.getElem?_eq_none (by omega)] at h
  simp at h

theorem getD_set_false_self (m : List Bool) (a : ℕ) (ha : a < m.length) :
    (m.set a false).getD a false = false := by
  rw [List.getD_eq_getElem?_getD, List.getElem?_set_self ha]
  rfl

theorem getD_set_false_ne (m : List Bool) (a p : ℕ) (hap : a ≠ p) :
    (m.set a false).getD p false = m.getD p false := by
  rw [List.getD_eq_getElem?_getD, List.getElem?_set_ne hap,
    ← List.getD_eq_getElem?_getD]

theorem maskInit_getD (S : List ℕ) (p : ℕ) :
    (icfMaskInit S).getD p false = decide (p < S.length) := by
  rw [icfMaskInit, List.getD_eq_getElem?_getD, List.getElem?_replicate]
  by_cases h : p < S.length <;> simp [h]

/-- The sequential mask-clearing fold of a pass, analysed positionally: a
position is cleared exactly when it is processed and its precomputed
reachability exceeds its precomputed coverage. -/
theorem maskFold_getD (dist : List ℚ → List ℚ → ℚ) (X : List (List ℚ))
    (y : List ℤ) (S : List ℕ) (l : List ℕ) (hl : l.Nodup) (m : List Bool)
    (p : ℕ) :
    (l.foldl
      (fun m2 p2 =>
        if m2.getD p2 false ∧ icfCovArr dist X y S p2 < icfReachArr dist X y S p2
        then m2.set p2 false else m2) m).getD p false
    = if p ∈ l then
        m.getD p false && !decide (icfCovArr dist X y S p < icfReachArr dist X y S p)
      else m.getD p false := by
  induction l generalizing m with
  | nil => simp
  | cons a l ih =>
    rw [List.nodup_cons] at hl
    rw [List.foldl_cons, ih hl.2]
    by_cases hpa : p = a
    · subst hpa
      have hpl : p ∉ l := hl.1
      simp only [hpl, if_false, List.mem_cons, true_or, if_true]
      by_cases hc : m.getD p false ∧ icfCovArr dist X y S p < icfReachArr dist X y S p
      · rw [if_pos hc, getD_set_false_self m p (getD_true_lt_length m p hc.1)]
        simp [hc.1, hc.2]
      · rw [if_neg hc]
        by_cases hm : m.getD p false = true
        · have hcov : ¬ icfCovArr dist X y S p < icfReachArr dist X y S p := by
            intro hlt; exact hc ⟨hm, hlt⟩
          rw [hm]
          simp [hcov]
        · simp only [Bool.not_eq_true] at hm
          rw [hm]
          simp
    · have hstep :
        (if m.getD a false = true ∧
            icfCovArr dist X y S a < icfReachArr dist X y S a
         then m.set a false else m).getD p false = m.getD p false := by
        by_cases hc : m.getD a false = true ∧
            icfCovArr dist X y S a < icfReachArr dist X y S a
        · rw [if_pos hc]
          exact getD_set_false_ne m a p (fun h2 => hpa h2.symm)
        · rw [if_neg hc]
      rw [hstep]
      refine (if_congr ?_ rfl rfl)
      simp [List.mem_cons, hpa]

/-- For every in-range position, the final mask of a pass holds exactly
"coverage not exceeded by reachability". -/
theorem maskFinal_getD (dist : List ℚ → List ℚ → ℚ) (X : List (List ℚ))
    (y : List ℤ) (S : List ℕ) (p : ℕ) (hp : p < S.length) :
    (icfMaskFinal dist X y S).getD p false
    = !decide (icfCovArr dist X y S p < icfReachArr dist X y S p) := by
  rw [icfMaskFinal, maskFold_getD dist X y S _ (List.nodup_range _) _ p,
    if_pos (List.mem_range.mpr hp), maskInit_getD]
  simp [hp]

/-- With the all-true pass-start mask, the implementation's coverage count
is the specification's snapshot coverage. -/
theorem covArr_eq_snap (dist : List ℚ → List ℚ → ℚ) (X : List (List ℚ))
    (y : List ℤ) (S : List ℕ) (p : ℕ) (hp : p < S.length) :
    icfCovArr dist X y S p = icfCovSnap dist X y S p := by
  rw [icfCovArr, maskInit_getD, if_pos (by simpa using hp), icfCov, icfCovSnap]
  refine congrArg List.length (List.filter_congr ?_)
  intro q hq
  rw [maskInit_getD]
  simp [List.mem_range.mp hq]

theorem reachArr_eq_snap (dist : List ℚ → List ℚ → ℚ) (X : List (List ℚ))
    (y : List ℤ) (S : List ℕ) (p : ℕ) (hp : p < S.length) :
    icfReachArr dist X y S p = icfReachSnap dist X y S p := by
  rw [icfReachArr, maskInit_getD, if_pos (by simpa using hp), icfReach,
    icfReachSnap]
  refine congrArg List.length (List.filter_congr ?_)
  intro q hq
  rw [maskInit_getD]
  simp [List.mem_range.mp hq]

theorem fst_lt_of_mem_enum {α : Type} {l : List α} {pe : ℕ × α}
    (h : pe ∈ l.enum) : pe.1 < l.length := by
  rw [List.enum_eq_zip_range] at h
  exact List.mem_range.mp (List.of_mem_zip h).1

/-- The sequential pass of `ICF._fit` equals the snapshot pass the
specification describes. -/
theorem pass_eq_snap (dist : List ℚ → List ℚ → ℚ) (X : List (List ℚ))
    (y : List ℤ) (S : List ℕ) :
    icfPass dist X y S = icfPassSnap dist X y S := by
  rw [icfPass, icfPassSnap]
  refine congrArg (List.map Prod.snd) (List.filter_congr ?_)
  intro pe hpe
  have hp := fst_lt_of_mem_enum hpe
  rw [maskFinal_getD dist X y S pe.1 hp, covArr_eq_snap dist X y S pe.1 hp,
    reachArr_eq_snap dist X y S pe.1 hp]

theorem filterRange_length_eq_sum (n : ℕ) (f : ℕ → Bool) :
    ((List.range n).filter f).length
    = ∑ q ∈ Finset.range n, if f q then 1 else 0 := by
  induction n with
  | zero => simp
  | succ n ih =>
    rw [List.range_succ, List.filter_append, List.length_append, ih,
      Finset.sum_range_succ]
    by_cases h : f n <;> simp [h]

theorem bne_comm_nat (a b : ℕ) : (a != b) = (b != a) := by
  by_cases h : a = b
  · subst h; rfl
  · have h1 : (a != b) = true := bne_iff_ne.mpr h
    have h2 : (b != a) = true := bne_iff_ne.mpr (fun e => h e.symm)
    rw [h1, h2]

/-- Summed over all rows, reachability and coverage count the same set of
ordered adaptable pairs, so their totals agree. -/
theorem sum_reach_eq_sum_cov (dist : List ℚ → List ℚ → ℚ)
    (X : List (List ℚ)) (y : List ℤ) (S : List ℕ) :
    ∑ p ∈ Finset.range S.length, icfReachSnap dist X y S p
    = ∑ p ∈ Finset.range S.length, icfCovSnap dist X y S p := by
  have hl : ∀ p, icfReachSnap dist X y S p
      = ∑ q ∈ Finset.range S.length,
          if ((q != p) && icfAdaptable dist X y S q p) then 1 else 0 := by
    intro p; exact filterRange_length_eq_sum S.length _
  have hr : ∀ p, icfCovSnap dist X y S p
      = ∑ q ∈ Finset.range S.length,
          if ((q != p) && icfAdaptable dist X y S p q) then 1 else 0 := by
    intro p; exact filterRange_length_eq_sum S.length _
  calc ∑ p ∈ Finset.range S.length, icfReachSnap dist X y S p
      = ∑ p ∈ Finset.range S.length, ∑ q ∈ Finset.range S.length,
          if ((q != p) && icfAdaptable dist X y S q p) then 1 else 0 := by
        exact Finset.sum_congr rfl (fun p _ => hl p)
    _ = ∑ q ∈ Finset.range S.length, ∑ p ∈ Finset.range S.length,
          if ((q != p) && icfAdaptable dist X y S q p) then 1 else 0 :=
        Finset.sum_comm
    _ = ∑ p ∈ Finset.range S.length, ∑ q ∈ Finset.range S.length,
          if ((q != p) && icfAdaptable dist X y S p q) then 1 else 0 := by
        refine Finset.sum_congr rfl (fun p _ => ?_)
        refine Finset.sum_congr rfl (fun q _ => ?_)
        rw [bne_comm_nat p q]
    _ = ∑ p ∈ Finset.range S.length, icfCovSnap dist X y S p := by
        exact Finset.sum_congr rfl (fun p _ => (hr p).symm)

/-- A pass can never remove every surviving row: if every row had
reachability exceeding coverage the totals would differ. -/
theorem not_all_removed (dist : List ℚ → List ℚ → ℚ) (X : List (List ℚ))
    (y : List ℤ) (S : List ℕ) (hn : S.length ≠ 0)
    (h : ∀ p, p < S.length →
      icfCovSnap dist X y S p < icfReachSnap dist X y S p) : False := by
  have hlt : ∑ p ∈ Finset.range S.length, icfCovSnap dist X y S p
      < ∑ p ∈ Finset.range S.length, icfReachSnap dist X y S p := by
    refine Finset.sum_lt_sum_of_nonempty ?_ ?_
    · exact Finset.nonempty_range_iff.mpr hn
    · intro p hp; exact h p (Finset.mem_range.mp hp)
  rw [sum_reach_eq_sum_cov] at hlt
  exact lt_irrefl _ hlt

/-- If a pass returns the empty set, the pass input was already empty. -/
theorem pass_nil_iff (dist : List ℚ → List ℚ → ℚ) (X : List (List ℚ))
    (y : List ℤ) (S : List ℕ) (h : icfPass dist X y S = []) : S = [] := by
  rw [pass_eq_snap, icfPassSnap] at h
  rw [List.map_eq_nil_iff] at h
  rw [List.filter_eq_nil_iff] at h
  rw [← List.length_eq_zero]
  by_contra hn
  refine not_all_removed dist X y S hn ?_
  intro p hp
  have hlen : p < S.enum.length := by rw [List.enum_length]; exact hp
  have hmem : S.enum[p] ∈ S.enum := List.getElem_mem hlen
  rw [List.getElem_enum] at hmem
  have := h _ hmem
  simpa using this

/-- `S[self.mask]` keeps a sublist of `S`. -/
theorem pass_sublist (dist : List ℚ → List ℚ → ℚ) (X : List (List ℚ))
    (y : List ℤ) (S : List ℕ) : (icfPass dist X y S).Sublist S := by
  have h1 : (icfPass dist X y S).Sublist (S.enum.map Prod.snd) := by
    rw [icfPass]
    exact List.Sublist.map Prod.snd (List.filter_sublist _)
  rw [List.enum_map_snd] at h1
  exact h1

theorem pass_length_le (dist : List ℚ → List ℚ → ℚ) (X : List (List ℚ))
    (y : List ℤ) (S : List ℕ) :
    (icfPass dist X y S).length ≤ S.length :=
  (pass_sublist dist X y S).length_le

/-- The loop result is a sublist of its seed set. -/
theorem loop_sublist (dist : List ℚ → List ℚ → ℚ) (X : List (List ℚ))
    (y : List ℤ) (S : List ℕ) : (icfLoop dist X y S).Sublist S := by
  generalize hm : S.length = n
  induction n using Nat.strong_induction_on generalizing S with
  | _ n ih =>
    rw [icfLoop]
    split
    · next h =>
      subst hm
      exact ((ih _ h _ rfl).trans (pass_sublist dist X y S))
    · exact pass_sublist dist X y S

/-- When the loop halts, the last pass removed nothing. -/
theorem loop_fix (dist : List ℚ → List ℚ → ℚ) (X : List (List ℚ))
    (y : List ℤ) (S : List ℕ) :
    icfPass dist X y (icfLoop dist X y S) = icfLoop dist X y S := by
  generalize hm : S.length = n
  induction n using Nat.strong_induction_on generalizing S with
  | _ n ih =>
    rw [icfLoop]
    split
    · next h =>
      subst hm
      exact ih _ h _ rfl
    · next h =>
      have hlen : (icfPass dist X y S).length = S.length :=
        Nat.le_antisymm (pass_length_le dist X y S) (Nat.le_of_not_lt h)
      have heq : icfPass dist X y S = S :=
        (pass_sublist dist X y S).eq_of_length hlen
      rw [heq]
      exact heq

/-- The loop executes at most `max 1 |S|` passes on seed set `S`: every pass
but the last strictly shrinks the surviving set, and no pass empties a
nonempty set. -/
theorem count_le (dist : List ℚ → List ℚ → ℚ) (X : List (List ℚ))
    (y : List ℤ) (S : List ℕ) :
    icfPassCount dist X y S ≤ max 1 S.length := by
  generalize hm : S.length = n
  induction n using Nat.strong_induction_on generalizing S with
  | _ n ih =>
    rw [icfPassCount]
    split
    · next h =>
      have hne : icfPass dist X y S ≠ [] := by
        intro hnil
        have hS : S = [] := pass_nil_iff dist X y S hnil
        rw [hnil] at h
        rw [hS] at h
        simp at h
      have h1 : 1 ≤ (icfPass dist X y S).length := by
        cases hp : icfPass dist X y S with
        | nil => exact absurd hp hne
        | cons a l => simp
      have hrec := ih (icfPass dist X y S).length (by omega) _ rfl
      rw [max_eq_right h1] at hrec
      have hn1 : 1 ≤ n := by omega
      rw [max_eq_right hn1]
      omega
    · exact le_max_left 1 _

/-- The ENN seed set: distinct indices below `N` by construction. -/
theorem ennIdx_nodup (X : List (List ℚ)) (y : List ℤ) (k : ℕ) :
    (ennIdx X y k).Nodup :=
  (List.nodup_range X.length).filter _

theorem ennIdx_lt (X : List (List ℚ)) (y : List ℤ) (k : ℕ) (v : ℕ)
    (hv : v ∈ ennIdx X y k) : v < X.length :=
  List.mem_range.mp (List.mem_filter.mp hv).1

theorem ennIdx_length_le (X : List (List ℚ)) (y : List ℤ) (k : ℕ) :
    (ennIdx X y k).length ≤ X.length := by
  have := List.length_filter_le (ennKeep X y k) (List.range X.length)
  rwa [List.length_range] at this

/-- One scan step only appends to `Removed_Samples_Index_ALL`. -/
theorem scan_acc_grows (cols : ℕ → List ℤ) (L ST trs : ℕ) :
    ∀ (fuel : ℕ) (idxs : List ℕ) (iii : ℕ) (temporal acc : List ℕ),
    ∃ t, drlshScan cols L ST trs fuel idxs iii temporal acc = acc ++ t := by
  intro fuel
  induction fuel with
  | zero =>
    intro idxs iii temporal acc
    exact ⟨[], by rw [List.append_nil]; rfl⟩
  | succ fuel ih =>
    intro idxs iii temporal acc
    rw [drlshScan]
    by_cases h1 : iii < idxs.length
    · rw [if_pos h1]
      by_cases h2 : ((decide (iii + 1 < idxs.length)
          && decide (listMinN trs (temporal ++ drlshRemCur cols L ST idxs iii)
              ≤ idxs.getD (iii + 1) 0))
          || decide (2000 < iii)) = true
      · rw [if_pos h2]
        obtain ⟨t2, ht2⟩ := ih
          ((idxs.filter
            (fun v => !(temporal ++ drlshRemCur cols L ST idxs iii).contains v)).drop
            iii)
          1 [trs] (acc ++ drlshRemCur cols L ST idxs iii)
        exact ⟨drlshRemCur cols L ST idxs iii ++ t2,
          by rw [ht2, List.append_assoc]⟩
      · rw [if_neg h2]
        obtain ⟨t2, ht2⟩ := ih idxs (iii + 1)
          (temporal ++ drlshRemCur cols L ST idxs iii)
          (acc ++ drlshRemCur cols L ST idxs iii)
        exact ⟨drlshRemCur cols L ST idxs iii ++ t2,
          by rw [ht2, List.append_assoc]⟩
    · rw [if_neg h1]
      exact ⟨[], (List.append_nil acc).symm⟩

/-- The agreement count ranges over the `L` tables, so it is at most `L`. -/
theorem cnt_le_L (cols : ℕ → List ℤ) (L : ℕ) (idxs : List ℕ) (iii p : ℕ) :
    drlshCnt cols L idxs iii p ≤ L := by
  rw [drlshCnt]
  have := List.length_filter_le
    (fun t => (drlshColAt cols L idxs iii p).getD t 0
      == (cols (idxs.getD iii 0)).getD t 0) (List.range L)
  rwa [List.length_range] at this

/-- With a threshold above the table count, no step flags anything. -/
theorem remCur_nil (cols : ℕ → List ℤ) (L ST : ℕ) (idxs : List ℕ) (iii : ℕ)
    (h : L < ST) : drlshRemCur cols L ST idxs iii = [] := by
  rw [drlshRemCur]
  have hnil : (List.range idxs.length).filter
      (fun p => decide (0 < drlshCnt cols L idxs iii p)
        && decide (ST ≤ drlshCnt cols L idxs iii p)) = [] := by
    refine List.filter_eq_nil_iff.mpr ?_
    intro p hp
    have hle := cnt_le_L cols L idxs iii p
    have hst : ¬ ST ≤ drlshCnt cols L idxs iii p := by omega
    simp [hst]
  rw [hnil]
  rfl

/-- With a threshold above the table count, the whole scan flags nothing. -/
theorem scan_noflag (cols : ℕ → List ℤ) (L ST trs : ℕ) (h : L < ST) :
    ∀ (fuel : ℕ) (idxs : List ℕ) (iii : ℕ) (temporal acc : List ℕ),
    drlshScan cols L ST trs fuel idxs iii temporal acc = acc := by
  intro fuel
  induction fuel with
  | zero => intro idxs iii temporal acc; rfl
  | succ fuel ih =>
    intro idxs iii temporal acc
    rw [drlshScan, remCur_nil cols L ST idxs iii h, List.append_nil,
      List.append_nil]
    by_cases h1 : iii < idxs.length
    · rw [if_pos h1]
      split
      · exact ih _ 1 [trs] acc
      · exact ih idxs (iii + 1) temporal acc
    · rw [if_neg h1]

/-- With a threshold above the table count, no class contributes removals. -/
theorem removed_nil (gen : ℕ → ℚ) (X : List (List ℚ)) (y : List ℤ)
    ( M L : ℕ) (W : ℚ) (ST : ℕ) (h : L < ST) :
    drlshRemoved gen X y M L W ST = [] := by
  rw [drlshRemoved]
  have hfold : ∀ (cls : List ℤ) (acc : List ℕ),
      cls.foldl
        (fun acc c =>
          drlshScan (fun n => (drlshBuckets gen X M L W).getD n []) L ST
            (X.length + 1) (drlshFuel (classIdxs y c).length) (classIdxs y c) 0
            [X.length + 1] acc)
        acc = acc := by
    intro cls
    induction cls with
    | nil => intro acc; rfl
    | cons c cls ih =>
      intro acc
      rw [List.foldl_cons, scan_noflag _ L ST _ h]
      exact ih acc
  exact hfold _ []

theorem contains_false_of_not_mem (l : List ℕ) (v : ℕ) (h : v ∉ l) :
    l.contains v = false := by
  cases hc : l.contains v with
  | false => rfl
  | true => exact absurd (List.elem_iff.mp hc) h

theorem contains_true_of_mem (l : List ℕ) (v : ℕ) (h : v ∈ l) :
    l.contains v = true :=
  List.elem_iff.mpr h

theorem foldl_id_of {α β : Type} (f : α → β → α) (l : List β) (a : α)
    (h : ∀ x ∈ l, ∀ acc, f acc x = acc) : l.foldl f a = a := by
  induction l generalizing a with
  | nil => rfl
  | cons b l ih =>
    rw [List.foldl_cons, h b (List.mem_cons_self b l)]
    exact ih a (fun x hx acc => h x (List.mem_cons_of_mem b hx) acc)

/-- On the surviving set, every label read is the constant label when all
labels agree and the surviving indices are in range. -/
theorem ys_getD_const (y : List ℤ) (c : ℤ) (S : List ℕ) (q : ℕ)
    (hconst : ∀ v ∈ y, v = c) (hS : ∀ i ∈ S, i < y.length)
    (hq : q < S.length) : (icfYs y S).getD q 0 = c := by
  rw [icfYs, List.getD_eq_getElem?_getD, List.getElem?_map,
    List.getElem?_eq_getElem hq]
  have hm : S[q] ∈ S := List.getElem_mem hq
  have hlt : S[q] < y.length := hS _ hm
  simp only [Option.map_some', Option.getD_some]
  rw [List.getD_eq_getElem?_getD, List.getElem?_eq_getElem hlt]
  exact hconst _ (List.getElem_mem hlt)

/-- With a single class there is no enemy: the nearest-enemy fold never
updates its `np.inf` start. -/
theorem dne_none_of_const (dist : List ℚ → List ℚ → ℚ) (X : List (List ℚ))
    (y : List ℤ) (c : ℤ) (S : List ℕ) (q : ℕ)
    (hconst : ∀ v ∈ y, v = c) (hS : ∀ i ∈ S, i < y.length)
    (hq : q < S.length) : icfDNE dist X y S q = none := by
  rw [icfDNE]
  refine foldl_id_of _ _ _ ?_
  intro p2 hp2 acc
  rw [ys_getD_const y c S q hconst hS hq,
    ys_getD_const y c S p2 hconst hS (List.mem_range.mp hp2)]
  simp

/-- With a single class every adaptability comparison is a comparison with
`np.inf` and therefore true. -/
theorem adaptable_true_of_const (dist : List ℚ → List ℚ → ℚ)
    (X : List (List ℚ)) (y : List ℤ) (c : ℤ) (S : List ℕ) (p q : ℕ)
    (hconst : ∀ v ∈ y, v = c) (hS : ∀ i ∈ S, i < y.length)
    (hq : q < S.length) : icfAdaptable dist X y S p q = true := by
  rw [icfAdaptable, dne_none_of_const dist X y c S q hconst hS hq]
  rfl

/-- With a single class, coverage and reachability agree everywhere, so a
pass removes nothing. -/
theorem pass_id_of_const (dist : List ℚ → List ℚ → ℚ) (X : List (List ℚ))
    (y : List ℤ) (c : ℤ) (S : List ℕ)
    (hconst : ∀ v ∈ y, v = c) (hS : ∀ i ∈ S, i < y.length) :
    icfPass dist X y S = S := by
  have harr : ∀ p, p < S.length →
      icfCovArr dist X y S p = icfReachArr dist X y S p := by
    intro p hp
    rw [covArr_eq_snap dist X y S p hp, reachArr_eq_snap dist X y S p hp,
      icfCovSnap, icfReachSnap]
    refine congrArg List.length (List.filter_congr ?_)
    intro q hq
    rw [adaptable_true_of_const dist X y c S p q hconst hS
        (List.mem_range.mp hq),
      adaptable_true_of_const dist X y c S q p hconst hS hp]
  rw [icfPass]
  have hmask : ∀ pe ∈ S.enum,
      ((icfMaskFinal dist X y S).getD pe.1 false) = true := by
    intro pe hpe
    have hp := fst_lt_of_mem_enum hpe
    rw [maskFinal_getD dist X y S pe.1 hp, harr pe.1 hp]
    simp
  rw [List.filter_eq_self.mpr hmask, List.enum_map_snd]

/-- With a single class the loop returns its seed set after one pass. -/
theorem loop_id_of_const (dist : List ℚ → List ℚ → ℚ) (X : List (List ℚ))
    (y : List ℤ) (c : ℤ) (S : List ℕ)
    (hconst : ∀ v ∈ y, v = c) (hS : ∀ i ∈ S, i < y.length) :
    icfLoop dist X y S = S := by
  have hpass := pass_id_of_const dist X y c S hconst hS
  rw [icfLoop]
  split
  · next h =>
    rw [hpass] at h
    exact absurd h (lt_irrefl _)
  · exact hpass

/-- C1: for every input, the index sequence DRLSH's fit computes and the
index sequence ICF's fit computes are each duplicate-free and consist of
indices in `[0, N)`. -/
theorem claim_C1_subset (gen : ℕ → ℚ) (X : List (List ℚ)) (y : List ℤ)
    ( M L : ℕ) (W : ℚ) (ST k : ℕ) :
    ((drlshSelect gen X y M L W ST).Nodup
      ∧ (drlshSelect gen X y M L W ST).all (fun v => decide (v < X.length)) = true)
    ∧ ((icfFitIdx X y k).Nodup
      ∧ (icfFitIdx X y k).all (fun v => decide (v < X.length)) = true) := by
  constructor
  · constructor
    · exact (List.nodup_range X.length).filter _
    · refine List.all_eq_true.mpr ?_
      intro v hv
      have hm := List.mem_range.mp (List.mem_filter.mp hv).1
      simpa using hm
  · have hsub : (icfFitIdx X y k).Sublist (ennIdx X y k) :=
      loop_sublist euclidSq X y (ennIdx X y k)
    constructor
    · exact hsub.nodup (ennIdx_nodup X y k)
    · refine List.all_eq_true.mpr ?_
      intro v hv
      have hm := ennIdx_lt X y k v (hsub.subset hv)
      simpa using hm

/-- C2: in every pass of ICF's loop the implementation's coverage and
reachability arrays equal the snapshot counts the specification describes,
and the pass removes exactly the rows whose reachability strictly exceeds
their coverage, all decided on the common pass-start snapshot. -/
theorem claim_C2_pass (dist : List ℚ → List ℚ → ℚ) (X : List (List ℚ))
    (y : List ℤ) (S : List ℕ) :
    (∀ p, p < S.length →
      icfCovArr dist X y S p = icfCovSnap dist X y S p
      ∧ icfReachArr dist X y S p = icfReachSnap dist X y S p)
    ∧ icfPass dist X y S = icfPassSnap dist X y S :=
  ⟨fun p hp => ⟨covArr_eq_snap dist X y S p hp, reachArr_eq_snap dist X y S p hp⟩,
    pass_eq_snap dist X y S⟩

theorem claim_C2_witness :
    icfPass euclidSq [[0], [1]] [0, 1] [0, 1]
    = icfPassSnap euclidSq [[0], [1]] [0, 1] [0, 1] :=
  (claim_C2_pass euclidSq [[0], [1]] [0, 1] [0, 1]).2

/-- C3: every ICF pass leaves the surviving set no larger, and on a
nonempty input the loop runs at most `N` passes. -/
theorem claim_C3_termination (dist : List ℚ → List ℚ → ℚ)
    (X : List (List ℚ)) (y : List ℤ) (S : List ℕ) (k : ℕ) :
    (icfPass dist X y S).length ≤ S.length
    ∧ (1 ≤ X.length → icfPassCount dist X y (ennIdx X y k) ≤ X.length) := by
  refine ⟨pass_length_le dist X y S, ?_⟩
  intro hN
  have h1 := count_le dist X y (ennIdx X y k)
  have h2 : max 1 (ennIdx X y k).length ≤ max 1 X.length :=
    max_le_max (le_refl 1) (ennIdx_length_le X y k)
  rw [max_eq_right hN] at h2
  omega

theorem claim_C3_witness :
    1 ≤ ([[0], [1]] : List (List ℚ)).length
    ∧ icfPassCount euclidSq [[0], [1]] [0, 1] (ennIdx [[0], [1]] [0, 1] 1)
        ≤ ([[0], [1]] : List (List ℚ)).length :=
  ⟨by decide,
    (claim_C3_termination euclidSq [[0], [1]] [0, 1] [] 1).2 (by decide)⟩

/-- C4: DRLSH's fit reseeds the generator with the fixed seed `0`, so its
result does not depend on the ambient random state; ICF's fit is a pure
function of its input.  Both reducers are deterministic. -/
theorem claim_C4_determinism :
    (∀ (a1 a2 : ℕ) (gen : ℕ → ℕ → ℚ) (X : List (List ℚ)) (y : List ℤ)
      ( M L : ℕ) (W : ℚ) (ST : ℕ),
      drlshFitSeeded a1 gen X y M L W ST = drlshFitSeeded a2 gen X y M L W ST)
    ∧ ∀ (X : List (List ℚ)) (y : List ℤ) (k : ℕ),
      icfFitIdx X y k = icfFitIdx X y k :=
  ⟨fun _ _ _ _ _ _ _ _ _ => rfl, fun _ _ _ => rfl⟩

/-- C5 (counterexample): on an input whose labels are all identical the
nearest-enemy distance is indeed `np.inf` (`none`), but the adaptability
comparison `d < inf` then evaluates to `true`, not `false` as the claim
states. -/
theorem claim_C5_cx :
    icfDNE euclidSq [[0], [1]] [0, 0] [0, 1] 1 = none
    ∧ icfAdaptable euclidSq [[0], [1]] [0, 0] [0, 1] 0 1 = true := by
  constructor
  · decide
  · decide

/-- C5 (amended): with all labels identical, every nearest-enemy distance
is `np.inf`, every adaptability comparison evaluates to `true`, coverage
equals reachability everywhere, and the loop removes nothing beyond the
ENN pre-filter. -/
theorem claim_C5_amended (dist : List ℚ → List ℚ → ℚ) (X : List (List ℚ))
    (y : List ℤ) (k : ℕ) (c : ℤ)
    (hconst : ∀ v ∈ y, v = c) (hlen : X.length = y.length) :
    (∀ q, q < (ennIdx X y k).length →
      icfDNE dist X y (ennIdx X y k) q = none)
    ∧ (∀ p q, q < (ennIdx X y k).length →
      icfAdaptable dist X y (ennIdx X y k) p q = true)
    ∧ icfLoop dist X y (ennIdx X y k) = ennIdx X y k := by
  have hS : ∀ i ∈ ennIdx X y k, i < y.length := by
    intro i hi
    rw [← hlen]
    exact ennIdx_lt X y k i hi
  refine ⟨?_, ?_, ?_⟩
  · intro q hq
    exact dne_none_of_const dist X y c (ennIdx X y k) q hconst hS hq
  · intro p q hq
    exact adaptable_true_of_const dist X y c (ennIdx X y k) p q hconst hS hq
  · exact loop_id_of_const dist X y c (ennIdx X y k) hconst hS

theorem claim_C5_witness :
    (∀ v ∈ ([5, 5] : List ℤ), v = 5)
    ∧ icfLoop euclidSq [[0], [2]] [5, 5] (ennIdx [[0], [2]] [5, 5] 1)
        = ennIdx [[0], [2]] [5, 5] 1 :=
  ⟨by decide,
    (claim_C5_amended euclidSq [[0], [2]] [5, 5] 1 5 (by decide)
      (by decide)).2.2⟩

/-- C6: evaluating the overwrite `self.M = int(self.X.shape[0] ** (1 / 7))`
at a 3-row input with caller-supplied `M = 5`: the fit uses `1` projection
per table, not the caller's `5`. -/
theorem claim_C6_eval :
    drlshUsedM [[0], [0], [0]] 5 = 1 ∧ drlshUsedM [[0], [0], [0]] 5 ≠ 5 := by
  constructor
  · decide
  · decide

/-- C7 (counterexample): with bucket width `W = -1 ≤ 0` DRLSH's fit does
not fail: it returns a selection result. -/
theorem claim_C7_cx :
    ∃ r, drlshFit genZero [[0], [1]] [0, 0] 5 1 (-1) 1 = Except.ok r :=
  ⟨drlshSelect genZero [[0], [1]] [0, 0] 5 1 (-1) 1, rfl⟩

/-- C7 (amended): DRLSH performs no validation of `W`; for every negative
`W` and every well-shaped input, fit returns a selection result and raises
no error. -/
theorem claim_C7_amended (gen : ℕ → ℚ) (X : List (List ℚ)) (y : List ℤ)
    ( M L ST : ℕ) (W : ℚ) (hW : W < 0) (h1 : X.length = y.length)
    (h2 : X.length ≠ 0) :
    ∃ r, drlshFit gen X y M L W ST = Except.ok r := by
  rw [drlshFit, if_neg (fun hc => hc h1), if_neg h2]
  exact ⟨_, rfl⟩

theorem claim_C7_witness :
    ((-1 : ℚ) < 0)
    ∧ ∃ r, drlshFit genZero [[3], [4]] [1, 2] 7 2 (-1) 3 = Except.ok r :=
  ⟨by decide,
    claim_C7_amended genZero [[3], [4]] [1, 2] 7 2 3 (-1) (by decide)
      (by decide) (by decide)⟩

/-- C8: with `ST` strictly greater than `L` the agreement count (at most
`L`) can never reach the threshold, so DRLSH flags nothing and fit selects
the full index range `[0, N)`. -/
theorem claim_C8_threshold (gen : ℕ → ℚ) (X : List (List ℚ)) (y : List ℤ)
    ( M L : ℕ) (W : ℚ) (ST : ℕ) (h : L < ST) :
    drlshRemoved gen X y M L W ST = []
    ∧ drlshSelect gen X y M L W ST = List.range X.length := by
  refine ⟨removed_nil gen X y M L W ST h, ?_⟩
  rw [drlshSelect, removed_nil gen X y M L W ST h]
  refine List.filter_eq_self.mpr ?_
  intro a _
  rfl

theorem claim_C8_witness :
    (1 : ℕ) < 2
    ∧ drlshSelect genZero [[0], [9]] [0, 1] 0 1 1 2 = List.range 2 :=
  ⟨by decide, (claim_C8_threshold genZero [[0], [9]] [0, 1] 0 1 1 2
    (by decide)).2⟩

/-- C9: throughout DRLSH's per-class scan, restarts included, the list of
flagged indices only grows (the accumulator is always a prefix of the scan
result), and every flagged index is excluded from the final selection. -/
theorem claim_C9_flag_monotone :
    (∀ (cols : ℕ → List ℤ) (L ST trs fuel iii : ℕ)
      (idxs temporal acc : List ℕ),
      ∃ t, drlshScan cols L ST trs fuel idxs iii temporal acc = acc ++ t)
    ∧ ∀ (gen : ℕ → ℚ) (X : List (List ℚ)) (y : List ℤ) ( M L : ℕ) (W : ℚ)
      (ST : ℕ),
      (drlshRemoved gen X y M L W ST).all
        (fun v => !(drlshSelect gen X y M L W ST).contains v) = true := by
  constructor
  · intro cols L ST trs fuel iii idxs temporal acc
    exact scan_acc_grows cols L ST trs fuel idxs iii temporal acc
  · intro gen X y M L W ST
    refine List.all_eq_true.mpr ?_
    intro v hv
    have hnot : v ∉ drlshSelect gen X y M L W ST := by
      intro hmem
      have h2 := (List.mem_filter.mp hmem).2
      rw [contains_true_of_mem _ v hv] at h2
      simp at h2
    rw [contains_false_of_not_mem _ v hnot]
    rfl

/-- C10: the set ICF's fit returns is a fixed point of the removal rule:
re-running a pass — the implementation's or the specification's snapshot
version — over exactly the returned set changes nothing, so no retained
instance has reachability strictly above its coverage. -/
theorem claim_C10_fixpoint (X : List (List ℚ)) (y : List ℤ) (k : ℕ) :
    icfPass euclidSq X y (icfFitIdx X y k) = icfFitIdx X y k
    ∧ icfPassSnap euclidSq X y (icfFitIdx X y k) = icfFitIdx X y k := by
  have h := loop_fix euclidSq X y (ennIdx X y k)
  constructor
  · exact h
  · rw [← pass_eq_snap]
    exact h
